import Mathlib

/-!
Verification of the change-tracking engine (type-identity registry,
dirty-flag set, trackable shapes, tracked projections, query adaptor).

Type identities (`ElementTypeId`) are modelled as natural numbers: the
source only requires a stable, totally ordered, hashable key
(`src/query/type_id.rs`), and `BTreeMap` iteration order is the key
order, so `Nat` with `<` is a faithful model of the key structure.

`Changes` (`src/query/tracked.rs`) owns a `BTreeMap<ElementTypeId,
AtomicBool>`; it is modelled as an association list sorted strictly
ascending by key.  All registry operations below are direct
translations of the Rust methods; the atomic cells become plain `Bool`
values since all claims are about single-threaded runs.  `panic!` is
modelled by `Option` (`none` = the call panics).
-/

namespace Ecstasy

/-- Access mode of a leaf borrow (`src/query/tracked.rs` `AccessMode`). -/
inductive AccessMode where
  | ReadOnly
  | ReadWrite
deriving DecidableEq, Repr

/-- A trackable shape: the static type structure a `Trackable` impl
describes.  `ref`/`mref` are the leaf impls for `&T` / `&mut T` (the
`Nat` is `ElementTypeId::of::<T>()`), `opt` is the `Option<T>` impl,
`tup` the variadic tuple impls (`src/query/tuples.rs`), `orS` the
`hecs::Or<L, R>` impl (`src/query/hecs.rs`). -/
inductive Shape where
  | ref (t : Nat)
  | mref (t : Nat)
  | opt (s : Shape)
  | tup (ss : List Shape)
  | orS (l r : Shape)

/-- A runtime value conforming to some shape.  Leaf payloads are
irrelevant to flag behaviour, so leaves carry no data. -/
inductive Val where
  | leafV
  | noneV
  | someV (v : Val)
  | tupV (vs : List Val)
  | leftV (v : Val)
  | rightV (v : Val)
  | bothV (a b : Val)

/-- A tracked projection: `TrackedRef<T>` / `TrackedMut<T>` store the
leaf's type identity (the registry reference is passed explicitly to
each operation); composite projections mirror the value structure
(`Option<Tracked>`, tuple of projections, `Or` of projections). -/
inductive Tracked where
  | tref (t : Nat)
  | tmut (t : Nat)
  | noneT
  | someT (p : Tracked)
  | tupT (ps : List Tracked)
  | leftT (p : Tracked)
  | rightT (p : Tracked)
  | bothT (pa pb : Tracked)

mutual

/-- `Trackable::count_types`: leaves return 1, `Option` delegates,
tuples sum the element counts, `Or` sums both branch counts. -/
def Shape.count_types : Shape → Nat
  | .ref _ => 1
  | .mref _ => 1
  | .opt s => s.count_types
  | .tup ss => Shape.count_typesList ss
  | .orS l r => l.count_types + r.count_types

/-- Tuple macro body of `count_types`: `count += ...` over elements. -/
def Shape.count_typesList : List Shape → Nat
  | [] => 0
  | s :: ss => s.count_types + Shape.count_typesList ss

end

mutual

/-- `Trackable::for_each_type`, as the list of `(identity, mode)` pairs
in invocation order: leaves emit one pair, `Option` delegates, tuples
concatenate elements left to right, `Or` emits left then right. -/
def Shape.for_each_type : Shape → List (Nat × AccessMode)
  | .ref t => [(t, .ReadOnly)]
  | .mref t => [(t, .ReadWrite)]
  | .opt s => s.for_each_type
  | .tup ss => Shape.for_each_typeList ss
  | .orS l r => l.for_each_type ++ r.for_each_type

/-- Tuple macro body of `for_each_type`: each element in order. -/
def Shape.for_each_typeList : List Shape → List (Nat × AccessMode)
  | [] => []
  | s :: ss => s.for_each_type ++ Shape.for_each_typeList ss

end

/-- Lookup in the registry's association list (`BTreeMap::get`). -/
def lookupCell (t : Nat) : List (Nat × Bool) → Option Bool
  | [] => none
  | (k, b) :: rest => if k = t then some b else lookupCell t rest

/-- Sorted insertion of a fresh `false` cell if the key is vacant;
an occupied key is left untouched (`BTreeMap::entry` vacant/occupied
match in `Changes::reserve`). -/
def insertVacant (t : Nat) : List (Nat × Bool) → List (Nat × Bool)
  | [] => [(t, false)]
  | (k, b) :: rest =>
    if t < k then (t, false) :: (k, b) :: rest
    else if t = k then (k, b) :: rest
    else (k, b) :: insertVacant t rest

/-- Store `true` into the cell of key `t` (`AtomicBool::store(true)`));
other cells are untouched. -/
def storeTrue (t : Nat) : List (Nat × Bool) → List (Nat × Bool)
  | [] => []
  | (k, b) :: rest =>
    if k = t then (k, true) :: rest else (k, b) :: storeTrue t rest

/-- The change registry (`Changes` in `src/query/tracked.rs`):
a `BTreeMap<ElementTypeId, AtomicBool>` as a sorted assoc list. -/
structure Changes where
  changes : List (Nat × Bool)
deriving DecidableEq, Repr

namespace Changes

/-- `Changes::new`: empty map. -/
def new : Changes := ⟨[]⟩

/-- `Changes::reserve`: insert a fresh `false` cell if vacant, no-op
if occupied. -/
def reserve (c : Changes) (t : Nat) : Changes := ⟨insertVacant t c.changes⟩

/-- `Changes::new_for::<T>(_: &T)`: build a registry by reserving each
identity that `T::for_each_type` enumerates.  The value argument is
ignored (the Rust parameter is `_: &T`). -/
def new_for (s : Shape) (_v : Val) : Changes :=
  s.for_each_type.foldl (fun c tm => c.reserve tm.1) Changes.new

/-- `Changes::set_changed`: store `true` if the identity is reserved,
otherwise panic (modelled as `none`). -/
def set_changed (c : Changes) (t : Nat) : Option Changes :=
  match lookupCell t c.changes with
  | some _ => some ⟨storeTrue t c.changes⟩
  | none => none

/-- `Changes::is_changed`: load the flag, `false` when unreserved. -/
def is_changed (c : Changes) (t : Nat) : Bool :=
  match lookupCell t c.changes with
  | some b => b
  | none => false

/-- `Changes::for_each_changed`, as the list of identities the visitor
is invoked on: map iteration order, filtered to flags that are true. -/
def for_each_changed (c : Changes) : List Nat :=
  (c.changes.filter (fun kb => kb.2)).map (fun kb => kb.1)

/-- The reserved key set, in map order. -/
def keys (c : Changes) : List Nat := c.changes.map (fun kb => kb.1)

end Changes

mutual

/-- `Trackable::into_tracked`: leaves wrap into `TrackedRef` /
`TrackedMut`, `Option` maps over presence, tuples convert elementwise,
`Or` converts the engaged branch(es) preserving the constructor.
`none` marks a value that does not conform to the shape (ruled out by
Rust's type system, unrepresentable failure there). -/
def into_tracked : Shape → Val → Option Tracked
  | .ref t, .leafV => some (.tref t)
  | .mref t, .leafV => some (.tmut t)
  | .opt _, .noneV => some .noneT
  | .opt s, .someV v => (into_tracked s v).map .someT
  | .tup ss, .tupV vs => (into_trackedList ss vs).map .tupT
  | .orS sl _, .leftV v => (into_tracked sl v).map .leftT
  | .orS _ sr, .rightV v => (into_tracked sr v).map .rightT
  | .orS sl sr, .bothV a b =>
    match into_tracked sl a, into_tracked sr b with
    | some pa, some pb => some (.bothT pa pb)
    | _, _ => none
  | _, _ => none

/-- Tuple elements convert independently, in order, sharing the same
registry reference. -/
def into_trackedList : List Shape → List Val → Option (List Tracked)
  | [], [] => some []
  | s :: ss, v :: vs =>
    match into_tracked s v, into_trackedList ss vs with
    | some p, some ps => some (p :: ps)
    | _, _ => none
  | _, _ => none

end

/-- One use of a leaf projection bound to a registry:
`deref` is `Deref::deref` on `TrackedRef`/`TrackedMut` (returns the
borrowed value, makes no registry call); `deref_mut` is
`DerefMut::deref_mut` on `TrackedMut` (invokes `self.set_changed()`
before handing out the mutable borrow); `set_changed` is the explicit
`TrackedRef::set_changed`/`TrackedMut::set_changed` call. -/
inductive LeafUse where
  | deref
  | deref_mut
  | set_changed
deriving DecidableEq, Repr

/-- Registry effect of one use of a leaf projection whose stored
identity is `t`.  `deref` leaves the registry as is (its body is
`&*(self.value)`, no registry call); `deref_mut` and `set_changed`
both resolve to `changes.set_changed(ElementTypeId::of::<T>())`. -/
def applyUse (t : Nat) (c : Changes) : LeafUse → Option Changes
  | .deref => some c
  | .deref_mut => c.set_changed t
  | .set_changed => c.set_changed t

/-- A sequence of uses of one leaf projection, run left to right;
`none` as soon as one use panics. -/
def runUses (t : Nat) (c : Changes) : List LeafUse → Option Changes
  | [] => some c
  | u :: us =>
    match applyUse t c u with
    | some c2 => runUses t c2 us
    | none => none

/-- A sequence of `Changes::set_changed` calls (the only operation in
the source that writes to the registry after construction — `deref_mut`
delegates to it; `is_changed`, `for_each_changed`, `get_atomic` and
every `into_tracked` take `&self`/`&Changes` and only load). -/
def runMarks (c : Changes) : List Nat → Option Changes
  | [] => some c
  | t :: ts =>
    match c.set_changed t with
    | some c2 => runMarks c2 ts
    | none => none

/-- Which of the three `hecs::Or` engagement states a value is in. -/
inductive Engagement where
  | left
  | right
  | both
deriving DecidableEq, Repr

/-- Engagement state of a runtime value (`none` for non-sum values). -/
def Val.engagement : Val → Option Engagement
  | .leftV _ => some .left
  | .rightV _ => some .right
  | .bothV _ _ => some .both
  | _ => none

/-- Engagement state of a tracked projection (`none` when the
projection is not a sum projection). -/
def Tracked.engagement : Tracked → Option Engagement
  | .leftT _ => some .left
  | .rightT _ => some .right
  | .bothT _ _ => some .both
  | _ => none

/-- The wrapped iteration source (`hecs::QueryIter`): yields
`(Entity, QueryItem)` pairs in order; entities are modelled as `Nat`.
`hecs::QueryIter` is an exact-size iterator, so `size_hint` is the
exact remaining length. -/
structure QueryIter where
  items : List (Nat × Val)

/-- `Iterator::next` of the wrapped source. -/
def QueryIter.next : QueryIter → Option ((Nat × Val) × QueryIter)
  | ⟨[]⟩ => none
  | ⟨x :: rest⟩ => some (x, ⟨rest⟩)

/-- `Iterator::size_hint` of the wrapped source (exact). -/
def QueryIter.size_hint (q : QueryIter) : Nat × Option Nat :=
  (q.items.length, some q.items.length)

/-- `ExactSizeIterator::len` of the wrapped source. -/
def QueryIter.len (q : QueryIter) : Nat := q.items.length

/-- `TrackedQueryIter` (`src/query/hecs/query.rs`): the wrapped
iterator plus the statically known item shape (`QueryItem<'q, Q>`). -/
structure TrackedQueryIter where
  inner : QueryIter
  shape : Shape

/-- `TrackedQueryIter::next`: delegate to the inner iterator and map
the yielded pair to `(entity, components.into_tracked(changes))`. -/
def TrackedQueryIter.next (q : TrackedQueryIter) :
    Option ((Nat × Option Tracked) × TrackedQueryIter) :=
  match q.inner.next with
  | none => none
  | some ((e, v), rest) =>
    some ((e, into_tracked q.shape v), ⟨rest, q.shape⟩)

/-- `TrackedQueryIter::size_hint`: `self.inner.size_hint()`. -/
def TrackedQueryIter.size_hint (q : TrackedQueryIter) : Nat × Option Nat :=
  q.inner.size_hint

/-- `ExactSizeIterator::len` for `TrackedQueryIter`: `self.inner.len()`. -/
def TrackedQueryIter.len (q : TrackedQueryIter) : Nat := q.inner.len

/-- Drive the adaptor with `next` for at most `fuel` steps, collecting
every yielded item in order. -/
def TrackedQueryIter.take (fuel : Nat) (q : TrackedQueryIter) :
    List (Nat × Option Tracked) :=
  match fuel with
  | 0 => []
  | fuel + 1 =>
    match q.next with
    | none => []
    | some (item, rest) => item :: TrackedQueryIter.take fuel rest

/-- Spec-side reading of the leaf count of a shape: the number of
*distinct* leaf types it contains, duplicates collapsed (the union of
the element/branch leaf sets). -/
def Shape.distinctTypeCount (s : Shape) : Nat :=
  ((s.for_each_type.map (fun tm => tm.1)).dedup).length

/-- The `BTreeMap` representation invariant: keys strictly ascending. -/
def SortedKeys (l : List (Nat × Bool)) : Prop :=
  l.Pairwise (fun p q => p.1 < q.1)

instance : DecidablePred SortedKeys := fun l =>
  inferInstanceAs (Decidable (l.Pairwise _))

theorem lookupCell_eq_none_iff (t : Nat) (l : List (Nat × Bool)) :
    lookupCell t l = none ↔ t ∉ l.map (fun kb => kb.1) := by
  induction l with
  | nil => simp [lookupCell]
  | cons kb rest ih =>
    obtain ⟨k, b⟩ := kb
    by_cases h : k = t <;> simp [lookupCell, h, ih, Ne.symm]

theorem lookupCell_mem (t : Nat) (b : Bool) (l : List (Nat × Bool))
    (h : lookupCell t l = some b) : (t, b) ∈ l := by
  induction l with
  | nil => simp [lookupCell] at h
  | cons kb rest ih =>
    obtain ⟨k, b'⟩ := kb
    by_cases hk : k = t
    · simp [lookupCell, hk] at h
      simp [hk, h]
    · simp [lookupCell, hk] at h
      exact List.mem_cons_of_mem _ (ih h)

theorem lookupCell_storeTrue_self (t : Nat) (l : List (Nat × Bool)) :
    lookupCell t (storeTrue t l) = (lookupCell t l).map (fun _ => true) := by
  induction l with
  | nil => simp [lookupCell, storeTrue]
  | cons kb rest ih =>
    obtain ⟨k, b⟩ := kb
    by_cases hk : k = t <;> simp [lookupCell, storeTrue, hk, ih]

theorem lookupCell_storeTrue_ne (t x : Nat) (hx : x ≠ t)
    (l : List (Nat × Bool)) :
    lookupCell x (storeTrue t l) = lookupCell x l := by
  induction l with
  | nil => rfl
  | cons kb rest ih =>
    obtain ⟨k, b⟩ := kb
    by_cases hk : k = t
    · subst hk
      have hkx : ¬ k = x := fun h => hx h.symm
      simp only [storeTrue, if_pos rfl, lookupCell, if_neg hkx]
    · by_cases hkx : k = x
      · subst hkx
        simp [storeTrue, lookupCell, hk]
      · simp only [storeTrue, if_neg hk, lookupCell, if_neg hkx]
        exact ih

theorem map_fst_storeTrue (t : Nat) (l : List (Nat × Bool)) :
    (storeTrue t l).map (fun kb => kb.1) = l.map (fun kb => kb.1) := by
  induction l with
  | nil => simp [storeTrue]
  | cons kb rest ih =>
    obtain ⟨k, b⟩ := kb
    by_cases hk : k = t <;> simp [storeTrue, hk, ih]

theorem lookupCell_insertVacant_ne (t x : Nat) (hx : x ≠ t)
    (l : List (Nat × Bool)) :
    lookupCell x (insertVacant t l) = lookupCell x l := by
  have htx : ¬ t = x := fun h => hx h.symm
  induction l with
  | nil => simp only [insertVacant, lookupCell, if_neg htx]
  | cons kb rest ih =>
    obtain ⟨k, b⟩ := kb
    by_cases h1 : t < k
    · simp only [insertVacant, if_pos h1, lookupCell, if_neg htx]
    · by_cases h2 : t = k
      · simp only [insertVacant, if_neg h1, if_pos h2]
      · simp only [insertVacant, if_neg h1, if_neg h2, lookupCell]
        by_cases hkx : k = x
        · simp only [if_pos hkx]
        · simp only [if_neg hkx]
          exact ih

theorem lookupCell_insertVacant_self_isSome (t : Nat)
    (l : List (Nat × Bool)) :
    (lookupCell t (insertVacant t l)).isSome = true := by
  induction l with
  | nil => simp [insertVacant, lookupCell]
  | cons kb rest ih =>
    obtain ⟨k, b⟩ := kb
    by_cases h1 : t < k
    · simp [insertVacant, h1, lookupCell]
    · by_cases h2 : t = k
      · subst h2
        simp [insertVacant, h1, lookupCell]
      · have h2' : ¬ k = t := fun h => h2 h.symm
        simp only [insertVacant, if_neg h1, if_neg h2, lookupCell,
          if_neg h2']
        exact ih

theorem mem_map_fst_iff_lookupCell (x : Nat) (l : List (Nat × Bool)) :
    x ∈ l.map (fun kb => kb.1) ↔ lookupCell x l ≠ none := by
  rw [Ne, lookupCell_eq_none_iff, not_not]

theorem mem_map_fst_insertVacant_self (t : Nat) (l : List (Nat × Bool)) :
    t ∈ (insertVacant t l).map (fun kb => kb.1) := by
  rw [mem_map_fst_iff_lookupCell]
  intro h
  have := lookupCell_insertVacant_self_isSome t l
  rw [h] at this
  simp at this

theorem mem_map_fst_insertVacant_mono (t x : Nat) (l : List (Nat × Bool))
    (hx : x ∈ l.map (fun kb => kb.1)) :
    x ∈ (insertVacant t l).map (fun kb => kb.1) := by
  by_cases hxt : x = t
  · subst hxt
    exact mem_map_fst_insertVacant_self x l
  · rw [mem_map_fst_iff_lookupCell] at hx ⊢
    rw [lookupCell_insertVacant_ne t x hxt]
    exact hx

theorem mem_map_fst_insertVacant (t x : Nat) (l : List (Nat × Bool))
    (hx : x ∈ (insertVacant t l).map (fun kb => kb.1)) :
    x = t ∨ x ∈ l.map (fun kb => kb.1) := by
  by_cases hxt : x = t
  · exact Or.inl hxt
  · rw [mem_map_fst_iff_lookupCell, lookupCell_insertVacant_ne t x hxt] at hx
    exact Or.inr ((mem_map_fst_iff_lookupCell x l).mpr hx)

theorem insertVacant_of_mem (t : Nat) (l : List (Nat × Bool))
    (hs : SortedKeys l) (hm : t ∈ l.map (fun kb => kb.1)) :
    insertVacant t l = l := by
  induction l with
  | nil => simp at hm
  | cons kb rest ih =>
    obtain ⟨k, b⟩ := kb
    rw [SortedKeys, List.pairwise_cons] at hs
    obtain ⟨hhead, htail⟩ := hs
    rw [List.map_cons] at hm
    rcases List.mem_cons.mp hm with h | h
    · have h1 : ¬ t < k := by omega
      simp only [insertVacant, if_neg h1, if_pos h]
    · obtain ⟨q, hq, hqe⟩ := List.mem_map.mp h
      have hkq : k < q.1 := hhead q hq
      have hkt : k < t := by omega
      have h1 : ¬ t < k := by omega
      have h2 : ¬ t = k := by omega
      simp only [insertVacant, if_neg h1, if_neg h2, ih htail h]

theorem snd_insertVacant (t : Nat) (l : List (Nat × Bool))
    (h : ∀ p ∈ l, p.2 = false) :
    ∀ p ∈ insertVacant t l, p.2 = false := by
  induction l with
  | nil =>
    intro p hp
    simp [insertVacant] at hp
    simp [hp]
  | cons kb rest ih =>
    obtain ⟨k, b⟩ := kb
    intro p hp
    by_cases h1 : t < k
    · simp only [insertVacant, if_pos h1] at hp
      rcases List.mem_cons.mp hp with hp | hp
      · simp [hp]
      · exact h _ hp
    · by_cases h2 : t = k
      · simp only [insertVacant, if_neg h1, if_pos h2] at hp
        exact h _ hp
      · simp only [insertVacant, if_neg h1, if_neg h2] at hp
        rcases List.mem_cons.mp hp with hp | hp
        · exact h _ (hp ▸ List.mem_cons_self _ _)
        · exact ih (fun q hq => h _ (List.mem_cons_of_mem _ hq)) _ hp

theorem sortedKeys_insertVacant (t : Nat) (l : List (Nat × Bool))
    (hs : SortedKeys l) : SortedKeys (insertVacant t l) := by
  induction l with
  | nil =>
    rw [SortedKeys]
    simp [insertVacant]
  | cons kb rest ih =>
    obtain ⟨k, b⟩ := kb
    rw [SortedKeys, List.pairwise_cons] at hs
    obtain ⟨hhead, htail⟩ := hs
    by_cases h1 : t < k
    · rw [SortedKeys]
      simp only [insertVacant, if_pos h1]
      rw [List.pairwise_cons]
      refine ⟨?_, ?_⟩
      · intro p hp
        rcases List.mem_cons.mp hp with h | h
        · rw [h]
          exact h1
        · exact lt_trans h1 (hhead p h)
      · rw [List.pairwise_cons]
        exact ⟨hhead, htail⟩
    · by_cases h2 : t = k
      · rw [SortedKeys]
        simp only [insertVacant, if_neg h1, if_pos h2]
        rw [List.pairwise_cons]
        exact ⟨hhead, htail⟩
      · rw [SortedKeys]
        simp only [insertVacant, if_neg h1, if_neg h2]
        rw [List.pairwise_cons]
        refine ⟨?_, ih htail⟩
        intro p hp
        rcases mem_map_fst_insertVacant t p.1 rest
            (List.mem_map_of_mem _ hp) with h | h
        · show k < p.1
          omega
        · obtain ⟨q, hq, hqe⟩ := List.mem_map.mp h
          have hkq : k < q.1 := hhead q hq
          show k < p.1
          omega

theorem is_changed_eq_getD (c : Changes) (t : Nat) :
    c.is_changed t = (lookupCell t c.changes).getD false := by
  rw [Changes.is_changed]
  cases lookupCell t c.changes <;> rfl

theorem set_changed_eq_none_iff (c : Changes) (t : Nat) :
    c.set_changed t = none ↔ t ∉ c.keys := by
  rw [Changes.set_changed, Changes.keys, ← lookupCell_eq_none_iff]
  cases h : lookupCell t c.changes <;> simp

theorem set_changed_eq_some (c : Changes) (t : Nat) (c' : Changes)
    (h : c.set_changed t = some c') :
    c' = ⟨storeTrue t c.changes⟩ ∧ (lookupCell t c.changes).isSome = true := by
  rw [Changes.set_changed] at h
  cases hl : lookupCell t c.changes with
  | none =>
    rw [hl] at h
    exact absurd h (by simp)
  | some b =>
    rw [hl] at h
    simp only [Option.some.injEq] at h
    exact ⟨h.symm, by simp⟩

theorem is_changed_set_changed_self (c c' : Changes) (t : Nat)
    (h : c.set_changed t = some c') : c'.is_changed t = true := by
  obtain ⟨hc, hs⟩ := set_changed_eq_some c t c' h
  subst hc
  rw [is_changed_eq_getD]
  show (lookupCell t (storeTrue t c.changes)).getD false = true
  rw [lookupCell_storeTrue_self]
  cases hl : lookupCell t c.changes with
  | none =>
    rw [hl] at hs
    simp at hs
  | some b => rfl

theorem is_changed_set_changed_ne (c c' : Changes) (t x : Nat)
    (hx : x ≠ t) (h : c.set_changed t = some c') :
    c'.is_changed x = c.is_changed x := by
  obtain ⟨hc, _⟩ := set_changed_eq_some c t c' h
  subst hc
  rw [is_changed_eq_getD, is_changed_eq_getD]
  show (lookupCell x (storeTrue t c.changes)).getD false = _
  rw [lookupCell_storeTrue_ne t x hx]

theorem keys_set_changed (c c' : Changes) (t : Nat)
    (h : c.set_changed t = some c') : c'.keys = c.keys := by
  obtain ⟨hc, _⟩ := set_changed_eq_some c t c' h
  subst hc
  exact map_fst_storeTrue t c.changes

theorem is_changed_set_changed_mono (c c' : Changes) (t x : Nat)
    (h : c.set_changed t = some c') (hx : c.is_changed x = true) :
    c'.is_changed x = true := by
  by_cases hxt : x = t
  · subst hxt
    exact is_changed_set_changed_self c c' x h
  · rw [is_changed_set_changed_ne c c' t x hxt h]
    exact hx

theorem mem_keys_reserve (c : Changes) (t x : Nat) :
    x ∈ (c.reserve t).keys ↔ x = t ∨ x ∈ c.keys := by
  constructor
  · exact fun h => mem_map_fst_insertVacant t x c.changes h
  · rintro (h | h)
    · subst h
      exact mem_map_fst_insertVacant_self x c.changes
    · exact mem_map_fst_insertVacant_mono t x c.changes h

theorem mem_keys_foldl_reserve (l : List (Nat × AccessMode))
    (c : Changes) (x : Nat) :
    x ∈ (l.foldl (fun a tm => a.reserve tm.1) c).keys ↔
      x ∈ c.keys ∨ x ∈ l.map (fun tm => tm.1) := by
  induction l generalizing c with
  | nil => simp
  | cons tm rest ih =>
    rw [List.foldl_cons, ih, mem_keys_reserve]
    simp only [List.map_cons, List.mem_cons]
    tauto

theorem foldl_reserve_allFalse (l : List (Nat × AccessMode)) (c : Changes)
    (h : ∀ p ∈ c.changes, p.2 = false) :
    ∀ p ∈ (l.foldl (fun a tm => a.reserve tm.1) c).changes, p.2 = false := by
  induction l generalizing c with
  | nil => simpa using h
  | cons tm rest ih =>
    rw [List.foldl_cons]
    exact ih ⟨insertVacant tm.1 c.changes⟩ (snd_insertVacant _ _ h)

theorem foldl_reserve_sorted (l : List (Nat × AccessMode)) (c : Changes)
    (h : SortedKeys c.changes) :
    SortedKeys ((l.foldl (fun a tm => a.reserve tm.1) c).changes) := by
  induction l generalizing c with
  | nil => simpa using h
  | cons tm rest ih =>
    rw [List.foldl_cons]
    exact ih ⟨insertVacant tm.1 c.changes⟩ (sortedKeys_insertVacant _ _ h)

theorem new_for_allFalse (s : Shape) (v : Val) :
    ∀ p ∈ (Changes.new_for s v).changes, p.2 = false := by
  rw [Changes.new_for]
  exact foldl_reserve_allFalse _ Changes.new (by simp [Changes.new])

theorem new_for_sorted (s : Shape) (v : Val) :
    SortedKeys (Changes.new_for s v).changes := by
  rw [Changes.new_for]
  exact foldl_reserve_sorted _ Changes.new (by simp [Changes.new, SortedKeys])

theorem mem_keys_new_for (s : Shape) (v : Val) (x : Nat) :
    x ∈ (Changes.new_for s v).keys ↔
      x ∈ s.for_each_type.map (fun tm => tm.1) := by
  rw [Changes.new_for, mem_keys_foldl_reserve]
  simp [Changes.new, Changes.keys]

theorem is_changed_of_allFalse (c : Changes) (t : Nat)
    (h : ∀ p ∈ c.changes, p.2 = false) : c.is_changed t = false := by
  rw [is_changed_eq_getD]
  cases hl : lookupCell t c.changes with
  | none => rfl
  | some b =>
    have := h _ (lookupCell_mem t b c.changes hl)
    simp only [Option.getD_some]
    exact this

theorem for_each_changed_of_allFalse (c : Changes)
    (h : ∀ p ∈ c.changes, p.2 = false) : c.for_each_changed = [] := by
  rw [Changes.for_each_changed]
  have : c.changes.filter (fun kb => kb.2) = [] := by
    rw [List.filter_eq_nil_iff]
    intro p hp
    simp [h p hp]
  rw [this]
  rfl

theorem for_each_changed_sublist_keys (c : Changes) :
    c.for_each_changed.Sublist c.keys := by
  rw [Changes.for_each_changed, Changes.keys]
  exact (List.filter_sublist _).map _

theorem for_each_changed_pairwise (c : Changes)
    (h : SortedKeys c.changes) :
    c.for_each_changed.Pairwise (· < ·) := by
  rw [Changes.for_each_changed, List.pairwise_map]
  exact List.Pairwise.sublist (List.filter_sublist _) h

theorem nodup_keys_of_sorted (c : Changes) (h : SortedKeys c.changes) :
    c.keys.Nodup := by
  have hp : (c.changes.map (fun kb => kb.1)).Pairwise (· ≠ ·) :=
    List.Pairwise.map _ (fun a b hab => Nat.ne_of_lt hab) h
  exact hp

theorem lookupCell_of_mem_nodup (l : List (Nat × Bool)) (x : Nat) (b : Bool)
    (hnd : (l.map (fun kb => kb.1)).Nodup) (hm : (x, b) ∈ l) :
    lookupCell x l = some b := by
  induction l with
  | nil => simp at hm
  | cons kb rest ih =>
    obtain ⟨k, b'⟩ := kb
    rw [List.map_cons, List.nodup_cons] at hnd
    rcases List.mem_cons.mp hm with h | h
    · cases h
      simp [lookupCell]
    · have hk : ¬ k = x := by
        intro he
        apply hnd.1
        rw [he]
        exact List.mem_map_of_mem (fun kb => kb.1) h
      simp only [lookupCell, if_neg hk]
      exact ih hnd.2 h

theorem mem_for_each_changed_iff (c : Changes) (h : SortedKeys c.changes)
    (x : Nat) : x ∈ c.for_each_changed ↔ c.is_changed x = true := by
  constructor
  · intro hx
    rw [Changes.for_each_changed] at hx
    obtain ⟨p, hp, hpe⟩ := List.mem_map.mp hx
    rw [List.mem_filter] at hp
    rw [is_changed_eq_getD]
    have hx1 : p = (x, true) := by
      obtain ⟨k, b⟩ := p
      simp only at hpe
      simp only at hp
      rw [Prod.mk.injEq]
      exact ⟨hpe, by simpa using hp.2⟩
    rw [hx1] at hp
    rw [lookupCell_of_mem_nodup c.changes x true
      (nodup_keys_of_sorted c h) hp.1]
    rfl
  · intro hx
    rw [is_changed_eq_getD] at hx
    cases hl : lookupCell x c.changes with
    | none =>
      rw [hl] at hx
      simp at hx
    | some b =>
      rw [hl] at hx
      simp only [Option.getD_some] at hx
      subst hx
      have hm := lookupCell_mem x true c.changes hl
      rw [Changes.for_each_changed]
      exact List.mem_map_of_mem _ (List.mem_filter.mpr ⟨hm, by simp⟩)

theorem runMarks_some_keys (ts : List Nat) (c c' : Changes)
    (h : runMarks c ts = some c') : c'.keys = c.keys := by
  induction ts generalizing c with
  | nil =>
    simp only [runMarks, Option.some.injEq] at h
    rw [h]
  | cons t rest ih =>
    rw [runMarks] at h
    cases hsc : c.set_changed t with
    | none =>
      rw [hsc] at h
      simp at h
    | some c2 =>
      rw [hsc] at h
      rw [ih c2 h, keys_set_changed c c2 t hsc]

theorem runMarks_some_mono (ts : List Nat) (c c' : Changes) (x : Nat)
    (h : runMarks c ts = some c') (hx : c.is_changed x = true) :
    c'.is_changed x = true := by
  induction ts generalizing c with
  | nil =>
    simp only [runMarks, Option.some.injEq] at h
    rw [h] at hx
    exact hx
  | cons t rest ih =>
    rw [runMarks] at h
    cases hsc : c.set_changed t with
    | none =>
      rw [hsc] at h
      simp at h
    | some c2 =>
      rw [hsc] at h
      exact ih c2 h (is_changed_set_changed_mono c c2 t x hsc hx)

theorem runUses_some_mono (t : Nat) (us : List LeafUse) (c c' : Changes)
    (x : Nat) (h : runUses t c us = some c')
    (hx : c.is_changed x = true) : c'.is_changed x = true := by
  induction us generalizing c with
  | nil =>
    simp only [runUses, Option.some.injEq] at h
    rw [h] at hx
    exact hx
  | cons u rest ih =>
    rw [runUses] at h
    cases u with
    | deref =>
      simp only [applyUse] at h
      exact ih c h hx
    | deref_mut =>
      simp only [applyUse] at h
      cases hsc : c.set_changed t with
      | none =>
        rw [hsc] at h
        simp at h
      | some c2 =>
        rw [hsc] at h
        exact ih c2 h (is_changed_set_changed_mono c c2 t x hsc hx)
    | set_changed =>
      simp only [applyUse] at h
      cases hsc : c.set_changed t with
      | none =>
        rw [hsc] at h
        simp at h
      | some c2 =>
        rw [hsc] at h
        exact ih c2 h (is_changed_set_changed_mono c c2 t x hsc hx)

theorem runUses_all_deref (t : Nat) (us : List LeafUse) (c c' : Changes)
    (h : runUses t c us = some c') (hd : ∀ u ∈ us, u = LeafUse.deref) :
    c' = c := by
  induction us generalizing c with
  | nil =>
    simp only [runUses, Option.some.injEq] at h
    exact h.symm
  | cons u rest ih =>
    have hu : u = LeafUse.deref := hd u (List.mem_cons_self u rest)
    subst hu
    rw [runUses] at h
    simp only [applyUse] at h
    exact ih c h (fun u hu => hd u (List.mem_cons_of_mem _ hu))

theorem runUses_flag_iff (t : Nat) (us : List LeafUse) (c c' : Changes)
    (h : runUses t c us = some c') (h0 : c.is_changed t = false) :
    (c'.is_changed t = true ↔
      (LeafUse.deref_mut ∈ us ∨ LeafUse.set_changed ∈ us)) := by
  induction us generalizing c with
  | nil =>
    simp only [runUses, Option.some.injEq] at h
    rw [← h]
    simp [h0]
  | cons u rest ih =>
    rw [runUses] at h
    cases u with
    | deref =>
      simp only [applyUse] at h
      rw [ih c h h0]
      simp
    | deref_mut =>
      simp only [applyUse] at h
      cases hsc : c.set_changed t with
      | none =>
        rw [hsc] at h
        simp at h
      | some c2 =>
        rw [hsc] at h
        have hflag := is_changed_set_changed_self c c2 t hsc
        have := runUses_some_mono t rest c2 c' t h hflag
        simp [this]
    | set_changed =>
      simp only [applyUse] at h
      cases hsc : c.set_changed t with
      | none =>
        rw [hsc] at h
        simp at h
      | some c2 =>
        rw [hsc] at h
        have hflag := is_changed_set_changed_self c c2 t hsc
        have := runUses_some_mono t rest c2 c' t h hflag
        simp [this]

theorem take_eq_map (s : Shape) (items : List (Nat × Val)) (fuel : Nat)
    (hf : items.length ≤ fuel) :
    TrackedQueryIter.take fuel ⟨⟨items⟩, s⟩ =
      items.map (fun ev => (ev.1, into_tracked s ev.2)) := by
  induction items generalizing fuel with
  | nil =>
    cases fuel with
    | zero => rfl
    | succ n =>
      simp [TrackedQueryIter.take, TrackedQueryIter.next, QueryIter.next]
  | cons x rest ih =>
    obtain ⟨e, v⟩ := x
    cases fuel with
    | zero => simp at hf
    | succ n =>
      simp only [TrackedQueryIter.take, TrackedQueryIter.next,
        QueryIter.next, List.map_cons]
      rw [ih n (by simpa using hf)]

mutual

theorem count_types_eq_length (s : Shape) :
    s.count_types = s.for_each_type.length := by
  cases s with
  | ref t => rfl
  | mref t => rfl
  | opt s => exact count_types_eq_length s
  | tup ss =>
    rw [Shape.count_types, Shape.for_each_type]
    exact count_typesList_eq_length ss
  | orS l r =>
    rw [Shape.count_types, Shape.for_each_type, List.length_append,
      count_types_eq_length l, count_types_eq_length r]

theorem count_typesList_eq_length (ss : List Shape) :
    Shape.count_typesList ss = (Shape.for_each_typeList ss).length := by
  cases ss with
  | nil => rfl
  | cons s rest =>
    rw [Shape.count_typesList, Shape.for_each_typeList, List.length_append,
      count_types_eq_length s, count_typesList_eq_length rest]

end

/-- Claim C3: for every shape, immediately after building a registry
for it (`Changes::new_for`) and before any mutable access or explicit
mark, the registry reports no changes: `for_each_changed` invokes its
visitor zero times, and `is_changed` returns `false` for every
identity, reserved-but-untouched or unreserved alike. -/
theorem new_for_no_spurious_flags (s : Shape) (v : Val) :
    (Changes.new_for s v).for_each_changed = [] ∧
    ∀ t : Nat, (Changes.new_for s v).is_changed t = false :=
  ⟨for_each_changed_of_allFalse _ (new_for_allFalse s v),
   fun t => is_changed_of_allFalse _ t (new_for_allFalse s v)⟩

/-- Claim C2: calling `Changes::set_changed` for an identity that was
never reserved panics (modelled: returns `none`) rather than silently
ignoring the call, so no successor registry state is produced by the
failed call (the lookup precedes the panic and nothing is stored);
marking a reserved identity succeeds and leaves the key set intact. -/
theorem set_changed_unreserved_fails_fast (c : Changes) (t : Nat) :
    (t ∉ c.keys → c.set_changed t = none) ∧
    (t ∈ c.keys →
      ∃ c' : Changes, c.set_changed t = some c' ∧ c'.keys = c.keys) := by
  constructor
  · intro h
    exact (set_changed_eq_none_iff c t).mpr h
  · intro h
    cases hsc : c.set_changed t with
    | none => exact absurd ((set_changed_eq_none_iff c t).mp hsc) (by simp [h])
    | some c' => exact ⟨c', rfl, keys_set_changed c c' t hsc⟩

/-- Witness for C2 at a registry with key 3 only: marking 7 panics,
marking 3 succeeds and keeps the key set. -/
theorem set_changed_unreserved_fails_fast_witness :
    (Changes.mk [(3, false)]).set_changed 7 = none ∧
    ∃ c' : Changes, (Changes.mk [(3, false)]).set_changed 3 = some c' ∧
      c'.keys = (Changes.mk [(3, false)]).keys :=
  ⟨(set_changed_unreserved_fails_fast ⟨[(3, false)]⟩ 7).1 (by decide),
   (set_changed_unreserved_fails_fast ⟨[(3, false)]⟩ 3).2 (by decide)⟩

/-- Claim C8: after construction, any sequence of successful marks
(`set_changed` — the only registry-writing operation; `is_changed`,
`for_each_changed`, `get_atomic` and every `into_tracked` take the
registry by shared reference and only load) leaves the reserved key
set unchanged and is monotonic on flags: a flag that is `true` stays
`true` — no operation resets it. -/
theorem registry_keys_fixed_flags_monotone (c c' : Changes)
    (ts : List Nat) (h : runMarks c ts = some c') :
    c'.keys = c.keys ∧
    ∀ x : Nat, c.is_changed x = true → c'.is_changed x = true :=
  ⟨runMarks_some_keys ts c c' h,
   fun x hx => runMarks_some_mono ts c c' x h hx⟩

/-- Witness for C8: marking identity 2 on a registry with keys 1, 2
keeps the keys and keeps flag 1 set. -/
theorem registry_keys_fixed_flags_monotone_witness :
    runMarks ⟨[(1, true), (2, false)]⟩ [2] = some ⟨[(1, true), (2, true)]⟩ ∧
    ((Changes.mk [(1, true), (2, true)]).keys
        = (Changes.mk [(1, true), (2, false)]).keys ∧
      ∀ x : Nat, (Changes.mk [(1, true), (2, false)]).is_changed x = true →
        (Changes.mk [(1, true), (2, true)]).is_changed x = true) :=
  ⟨by decide,
   registry_keys_fixed_flags_monotone ⟨[(1, true), (2, false)]⟩
     ⟨[(1, true), (2, true)]⟩ [2] (by decide)⟩

/-- Claim C9: the tracked query iterator is a strictly 1:1,
order-preserving transformation of the wrapped source — driving it to
exhaustion yields exactly the inner items, each entity handle kept and
each value replaced by its tracked projection — and it reports the
inner iterator's `size_hint` and exact `len` unchanged. -/
theorem tracked_query_iter_one_to_one (s : Shape)
    (items : List (Nat × Val)) :
    TrackedQueryIter.take (TrackedQueryIter.len ⟨⟨items⟩, s⟩) ⟨⟨items⟩, s⟩
      = items.map (fun ev => (ev.1, into_tracked s ev.2)) ∧
    TrackedQueryIter.size_hint ⟨⟨items⟩, s⟩ = QueryIter.size_hint ⟨items⟩ ∧
    TrackedQueryIter.len ⟨⟨items⟩, s⟩ = QueryIter.len ⟨items⟩ ∧
    (TrackedQueryIter.take (TrackedQueryIter.len ⟨⟨items⟩, s⟩)
        ⟨⟨items⟩, s⟩).length = items.length := by
  refine ⟨take_eq_map s items items.length (le_refl _), rfl, rfl, ?_⟩
  show (TrackedQueryIter.take items.length ⟨⟨items⟩, s⟩).length = items.length
  rw [take_eq_map s items items.length (le_refl _), List.length_map]

/-- Claim C5 counterexample: `count_types` does not collapse duplicate
leaf types — on the tuple shape `(&mut W, &mut W)` (both leaves the
same type, identity 0) it returns 2, while the number of distinct leaf
types is 1. -/
theorem count_types_ne_distinct_at_dup_pair :
    Shape.count_types (Shape.tup [Shape.mref 0, Shape.mref 0]) = 2 ∧
    Shape.distinctTypeCount (Shape.tup [Shape.mref 0, Shape.mref 0]) = 1 ∧
    Shape.count_types (Shape.tup [Shape.mref 0, Shape.mref 0]) ≠
      Shape.distinctTypeCount (Shape.tup [Shape.mref 0, Shape.mref 0]) := by
  refine ⟨by decide, by decide, by decide⟩

/-- Claim C5 amended: `count_types` returns the total number of leaf
occurrences of the shape (one per position, summed across composite
elements and both sum branches, duplicates NOT collapsed); it equals
the number of distinct leaf types exactly when the shape's leaf types
are pairwise distinct. -/
theorem count_types_eq_total_leaf_occurrences (s : Shape) :
    s.count_types = s.for_each_type.length ∧
    ((s.for_each_type.map (fun tm => tm.1)).Nodup →
      s.count_types = s.distinctTypeCount) := by
  refine ⟨count_types_eq_length s, ?_⟩
  intro h
  rw [count_types_eq_length s, Shape.distinctTypeCount,
    List.Nodup.dedup h, List.length_map]

/-- Witness for the amended C5 at the duplicate-free shape
`(&mut 1, &2)`: total count 2 equals the distinct count. -/
theorem count_types_eq_total_leaf_occurrences_witness :
    Shape.count_types (Shape.tup [Shape.mref 1, Shape.ref 2])
      = (Shape.for_each_type (Shape.tup [Shape.mref 1, Shape.ref 2])).length ∧
    (((Shape.for_each_type (Shape.tup [Shape.mref 1, Shape.ref 2])).map
        (fun tm => tm.1)).Nodup ∧
      Shape.count_types (Shape.tup [Shape.mref 1, Shape.ref 2])
        = Shape.distinctTypeCount (Shape.tup [Shape.mref 1, Shape.ref 2])) :=
  ⟨(count_types_eq_total_leaf_occurrences (Shape.tup [Shape.mref 1, Shape.ref 2])).1,
   by decide,
   (count_types_eq_total_leaf_occurrences (Shape.tup [Shape.mref 1, Shape.ref 2])).2
     (by decide)⟩

/-- Claim C1: for a read-write leaf projection (`TrackedMut<T>`) bound
to a registry in which `T`'s identity is reserved and initially
unflagged, the flag becomes set through use of the projection iff
mutable access is obtained (`deref_mut`) or `set_changed` is
explicitly invoked; `deref_mut` flags even when no value is written
(write barrier), and a run consisting only of plain dereferences
leaves the registry exactly as it was (read transparency — no flag of
any type is set). -/
theorem tracked_mut_flag_iff_mut_access (t : Nat) (c0 c' : Changes)
    (us : List LeafUse) (_hres : t ∈ c0.keys)
    (h0 : c0.is_changed t = false) (hrun : runUses t c0 us = some c') :
    (c'.is_changed t = true ↔
      (LeafUse.deref_mut ∈ us ∨ LeafUse.set_changed ∈ us)) ∧
    ((∀ u ∈ us, u = LeafUse.deref) → c' = c0) :=
  ⟨runUses_flag_iff t us c0 c' hrun h0,
   fun hd => runUses_all_deref t us c0 c' hrun hd⟩

/-- Witness for C1: on a registry reserving identity 2, the run
`[deref, deref_mut]` (mutable access obtained, nothing written) sets
the flag. -/
theorem tracked_mut_flag_iff_mut_access_witness :
    2 ∈ (Changes.mk [(2, false)]).keys ∧
    (Changes.mk [(2, false)]).is_changed 2 = false ∧
    runUses 2 ⟨[(2, false)]⟩ [LeafUse.deref, LeafUse.deref_mut]
      = some ⟨[(2, true)]⟩ ∧
    (((Changes.mk [(2, true)]).is_changed 2 = true ↔
        (LeafUse.deref_mut ∈ [LeafUse.deref, LeafUse.deref_mut] ∨
         LeafUse.set_changed ∈ [LeafUse.deref, LeafUse.deref_mut])) ∧
      ((∀ u ∈ [LeafUse.deref, LeafUse.deref_mut], u = LeafUse.deref) →
        (Changes.mk [(2, true)]) = ⟨[(2, false)]⟩)) :=
  ⟨by decide, by decide, by decide,
   tracked_mut_flag_iff_mut_access 2 ⟨[(2, false)]⟩ ⟨[(2, true)]⟩
     [LeafUse.deref, LeafUse.deref_mut] (by decide) (by decide) (by decide)⟩

/-- Claim C4: reservation is idempotent — reserving an identity that
is already a key of the (sorted) registry is a no-op — and a registry
built for the tuple shape `(&mut W, &mut W)` has exactly one flag cell
(its whole map is `[(w, false)]`); both tuple positions project to the
same `TrackedMut` identity `w`, and a mutable access through that
identity sets that one shared flag. -/
theorem reserve_idempotent_shared_type_collapse :
    (∀ (c : Changes) (t : Nat), SortedKeys c.changes → t ∈ c.keys →
      c.reserve t = c) ∧
    (∀ (w : Nat) (v : Val),
      (Changes.new_for (Shape.tup [Shape.mref w, Shape.mref w]) v).changes
        = [(w, false)]) ∧
    (∀ w : Nat,
      into_tracked (Shape.tup [Shape.mref w, Shape.mref w])
          (Val.tupV [Val.leafV, Val.leafV])
        = some (Tracked.tupT [Tracked.tmut w, Tracked.tmut w])) ∧
    (∀ (w : Nat) (v : Val),
      applyUse w (Changes.new_for (Shape.tup [Shape.mref w, Shape.mref w]) v)
          LeafUse.deref_mut = some ⟨[(w, true)]⟩ ∧
      (Changes.mk [(w, true)]).for_each_changed = [w]) := by
  refine ⟨?_, ?_, ?_, ?_⟩
  · intro c t hs hm
    show Changes.mk (insertVacant t c.changes) = c
    rw [insertVacant_of_mem t c.changes hs hm]
  · intro w v
    rw [Changes.new_for]
    simp [Shape.for_each_type, Shape.for_each_typeList, Changes.reserve,
      Changes.new, insertVacant]
  · intro w
    simp [into_tracked, into_trackedList]
  · intro w v
    have hreg :
        (Changes.new_for (Shape.tup [Shape.mref w, Shape.mref w]) v).changes
          = [(w, false)] := by
      rw [Changes.new_for]
      simp [Shape.for_each_type, Shape.for_each_typeList, Changes.reserve,
        Changes.new, insertVacant]
    have hc : Changes.new_for (Shape.tup [Shape.mref w, Shape.mref w]) v
        = ⟨[(w, false)]⟩ := congrArg Changes.mk hreg
    constructor
    · show (Changes.new_for _ _).set_changed w = _
      rw [hc]
      simp [Changes.set_changed, lookupCell, storeTrue]
    · simp [Changes.for_each_changed]

/-- Witness for C4 with `w = 5`: idempotent reserve on a concrete
sorted registry, and the duplicate-leaf tuple shape collapsing to the
single cell for identity 5. -/
theorem reserve_idempotent_shared_type_collapse_witness :
    (SortedKeys (Changes.mk [(1, false), (4, true)]).changes ∧
     1 ∈ (Changes.mk [(1, false), (4, true)]).keys ∧
     (Changes.mk [(1, false), (4, true)]).reserve 1
       = ⟨[(1, false), (4, true)]⟩) ∧
    (Changes.new_for (Shape.tup [Shape.mref 5, Shape.mref 5])
        Val.leafV).changes = [(5, false)] ∧
    applyUse 5 (Changes.new_for (Shape.tup [Shape.mref 5, Shape.mref 5])
        Val.leafV) LeafUse.deref_mut = some ⟨[(5, true)]⟩ :=
  ⟨⟨by decide, by decide,
    reserve_idempotent_shared_type_collapse.1 ⟨[(1, false), (4, true)]⟩ 1
      (by decide) (by decide)⟩,
   reserve_idempotent_shared_type_collapse.2.1 5 Val.leafV,
   (reserve_idempotent_shared_type_collapse.2.2.2 5 Val.leafV).1⟩

/-- Claim C6: on a registry satisfying the `BTreeMap` invariant
(strictly ascending keys — every registry the code builds satisfies
it), `for_each_changed` visits a finite subsequence of the reserved
identities, in their ascending total order, containing exactly the
identities whose flag is true.  The traversal is a pure function of
the registry (the Rust method takes `&self` and only loads), so
re-invoking it without intervening marks yields the same visits. -/
theorem for_each_changed_order_exactness (c : Changes)
    (hs : SortedKeys c.changes) :
    c.for_each_changed.Sublist c.keys ∧
    c.for_each_changed.Pairwise (· < ·) ∧
    (∀ x : Nat, x ∈ c.for_each_changed ↔ c.is_changed x = true) :=
  ⟨for_each_changed_sublist_keys c, for_each_changed_pairwise c hs,
   fun x => mem_for_each_changed_iff c hs x⟩

/-- Witness for C6 on the registry `{1 ↦ true, 2 ↦ false, 3 ↦ true}`. -/
theorem for_each_changed_order_exactness_witness :
    SortedKeys (Changes.mk [(1, true), (2, false), (3, true)]).changes ∧
    ((Changes.mk [(1, true), (2, false), (3, true)]).for_each_changed.Sublist
        (Changes.mk [(1, true), (2, false), (3, true)]).keys ∧
      (Changes.mk [(1, true), (2, false),
        (3, true)]).for_each_changed.Pairwise (· < ·) ∧
      (∀ x : Nat,
        x ∈ (Changes.mk [(1, true), (2, false), (3, true)]).for_each_changed
          ↔ (Changes.mk [(1, true), (2, false), (3, true)]).is_changed x
            = true)) :=
  ⟨by decide,
   for_each_changed_order_exactness ⟨[(1, true), (2, false), (3, true)]⟩
     (by decide)⟩

theorem mark_new_for_isolates (s : Shape) (v0 : Val) (x y : Nat)
    (hx : x ∈ (Changes.new_for s v0).keys) (hxy : y ≠ x) :
    ∃ c' : Changes,
      (Changes.new_for s v0).set_changed x = some c' ∧
      c'.is_changed x = true ∧ c'.is_changed y = false := by
  cases hsc : (Changes.new_for s v0).set_changed x with
  | none => exact absurd ((set_changed_eq_none_iff _ x).mp hsc) (by simp [hx])
  | some c' =>
    refine ⟨c', rfl, is_changed_set_changed_self _ c' x hsc, ?_⟩
    rw [is_changed_set_changed_ne _ c' x y hxy hsc]
    exact is_changed_of_allFalse _ y (new_for_allFalse s v0)

theorem mark_mark_new_for (s : Shape) (v0 : Val) (x y : Nat)
    (hx : x ∈ (Changes.new_for s v0).keys)
    (hy : y ∈ (Changes.new_for s v0).keys) :
    ∃ c1 c2 : Changes,
      (Changes.new_for s v0).set_changed x = some c1 ∧
      c1.set_changed y = some c2 ∧
      c2.is_changed x = true ∧ c2.is_changed y = true := by
  cases hsc1 : (Changes.new_for s v0).set_changed x with
  | none => exact absurd ((set_changed_eq_none_iff _ x).mp hsc1) (by simp [hx])
  | some c1 =>
    have hy1 : y ∈ c1.keys := by
      rw [keys_set_changed _ c1 x hsc1]
      exact hy
    cases hsc2 : c1.set_changed y with
    | none =>
      exact absurd ((set_changed_eq_none_iff _ y).mp hsc2) (by simp [hy1])
    | some c2 =>
      refine ⟨c1, c2, rfl, hsc2, ?_,
        is_changed_set_changed_self c1 c2 y hsc2⟩
      exact is_changed_set_changed_mono c1 c2 y x hsc2
        (is_changed_set_changed_self _ c1 x hsc1)

/-- Claim C7: converting a two-way sum shape (`hecs::Or`) preserves
the engagement state exactly (Left to Left, Right to Right, Both to
Both), converting only the engaged branch(es); for the sum shape over
distinct read-write leaves `u` (left) and `w` (right): engaging only
the left branch and mutating it flags `u` only, engaging both and
mutating only the right flags `w` only, and mutating both flags both.
Conversion itself performs no flag activity (`to_tracked` only
constructs wrappers), so a non-engaged branch contributes neither a
projection nor a flag. -/
theorem or_tracked_engagement_branch_isolation :
    (∀ (sl sr : Shape) (v : Val) (p : Tracked),
      into_tracked (Shape.orS sl sr) v = some p →
      p.engagement = v.engagement) ∧
    (∀ u w : Nat, u ≠ w →
      into_tracked (Shape.orS (Shape.mref u) (Shape.mref w))
          (Val.leftV Val.leafV) = some (Tracked.leftT (Tracked.tmut u)) ∧
      ∀ v0 : Val, ∃ c' : Changes,
        applyUse u (Changes.new_for
            (Shape.orS (Shape.mref u) (Shape.mref w)) v0) LeafUse.deref_mut
          = some c' ∧
        c'.is_changed u = true ∧ c'.is_changed w = false) ∧
    (∀ u w : Nat, u ≠ w →
      into_tracked (Shape.orS (Shape.mref u) (Shape.mref w))
          (Val.bothV Val.leafV Val.leafV)
        = some (Tracked.bothT (Tracked.tmut u) (Tracked.tmut w)) ∧
      ∀ v0 : Val, ∃ c' : Changes,
        applyUse w (Changes.new_for
            (Shape.orS (Shape.mref u) (Shape.mref w)) v0) LeafUse.deref_mut
          = some c' ∧
        c'.is_changed w = true ∧ c'.is_changed u = false) ∧
    (∀ u w : Nat, u ≠ w → ∀ v0 : Val, ∃ c1 c2 : Changes,
      applyUse u (Changes.new_for
          (Shape.orS (Shape.mref u) (Shape.mref w)) v0) LeafUse.deref_mut
        = some c1 ∧
      applyUse w c1 LeafUse.deref_mut = some c2 ∧
      c2.is_changed u = true ∧ c2.is_changed w = true) := by
  have hmemL : ∀ (u w : Nat) (v0 : Val),
      u ∈ (Changes.new_for
        (Shape.orS (Shape.mref u) (Shape.mref w)) v0).keys := by
    intro u w v0
    rw [mem_keys_new_for]
    simp [Shape.for_each_type]
  have hmemR : ∀ (u w : Nat) (v0 : Val),
      w ∈ (Changes.new_for
        (Shape.orS (Shape.mref u) (Shape.mref w)) v0).keys := by
    intro u w v0
    rw [mem_keys_new_for]
    simp [Shape.for_each_type]
  refine ⟨?_, ?_, ?_, ?_⟩
  · intro sl sr v p h
    cases v with
    | leafV => simp [into_tracked] at h
    | noneV => simp [into_tracked] at h
    | someV v' => simp [into_tracked] at h
    | tupV vs => simp [into_tracked] at h
    | leftV v' =>
      simp only [into_tracked] at h
      cases hq : into_tracked sl v' with
      | none =>
        rw [hq] at h
        simp at h
      | some q =>
        rw [hq] at h
        simp only [Option.map_some', Option.some.injEq] at h
        rw [← h]
        rfl
    | rightV v' =>
      simp only [into_tracked] at h
      cases hq : into_tracked sr v' with
      | none =>
        rw [hq] at h
        simp at h
      | some q =>
        rw [hq] at h
        simp only [Option.map_some', Option.some.injEq] at h
        rw [← h]
        rfl
    | bothV a b =>
      simp only [into_tracked] at h
      cases ha : into_tracked sl a with
      | none =>
        rw [ha] at h
        simp at h
      | some qa =>
        cases hb : into_tracked sr b with
        | none =>
          rw [ha, hb] at h
          simp at h
        | some qb =>
          rw [ha, hb] at h
          simp only [Option.some.injEq] at h
          rw [← h]
          rfl
  · intro u w huw
    refine ⟨by simp [into_tracked], ?_⟩
    intro v0
    simpa only [applyUse] using
      mark_new_for_isolates (Shape.orS (Shape.mref u) (Shape.mref w)) v0
        u w (hmemL u w v0) (Ne.symm huw)
  · intro u w huw
    refine ⟨by simp [into_tracked], ?_⟩
    intro v0
    simpa only [applyUse] using
      mark_new_for_isolates (Shape.orS (Shape.mref u) (Shape.mref w)) v0
        w u (hmemR u w v0) huw
  · intro u w _huw v0
    simpa only [applyUse] using
      mark_mark_new_for (Shape.orS (Shape.mref u) (Shape.mref w)) v0
        u w (hmemL u w v0) (hmemR u w v0)

/-- Witness for C7 with left leaf 1 and right leaf 2: engagement of
the converted left value is Left, and mutating the engaged left
projection flags 1 only. -/
theorem or_tracked_engagement_branch_isolation_witness :
    (Tracked.leftT (Tracked.tmut 1)).engagement
      = (Val.leftV Val.leafV).engagement ∧
    (into_tracked (Shape.orS (Shape.mref 1) (Shape.mref 2))
        (Val.leftV Val.leafV) = some (Tracked.leftT (Tracked.tmut 1)) ∧
      ∀ v0 : Val, ∃ c' : Changes,
        applyUse 1 (Changes.new_for
            (Shape.orS (Shape.mref 1) (Shape.mref 2)) v0) LeafUse.deref_mut
          = some c' ∧
        c'.is_changed 1 = true ∧ c'.is_changed 2 = false) :=
  ⟨or_tracked_engagement_branch_isolation.1 (Shape.mref 1) (Shape.mref 2)
     (Val.leftV Val.leafV) (Tracked.leftT (Tracked.tmut 1)) rfl,
   or_tracked_engagement_branch_isolation.2.1 1 2 (by decide)⟩

/-- Claim C10: registry construction is determined solely by the
shape, not by the runtime value passed (the Rust parameter is an
ignored `_: &T`): any two values give the same registry; every
identity enumerated by `for_each_type` is reserved regardless of its
access mode (read-only leaves receive cells too); and for the optional
shape `Option<&mut T>` the registry — built the same for a `None`
value — still reserves the inner leaf's cell, which stays unflagged,
while `None` converts to no projection. -/
theorem new_for_shape_determined :
    (∀ (s : Shape) (v w : Val), Changes.new_for s v = Changes.new_for s w) ∧
    (∀ (s : Shape) (v : Val) (t : Nat) (m : AccessMode),
      (t, m) ∈ s.for_each_type → t ∈ (Changes.new_for s v).keys) ∧
    (∀ (t : Nat) (v : Val),
      (Changes.new_for (Shape.opt (Shape.mref t)) v).changes = [(t, false)] ∧
      (Changes.new_for (Shape.opt (Shape.mref t)) v).is_changed t = false ∧
      into_tracked (Shape.opt (Shape.mref t)) Val.noneV
        = some Tracked.noneT) := by
  refine ⟨fun s v w => rfl, ?_, ?_⟩
  · intro s v t m hm
    rw [mem_keys_new_for]
    exact List.mem_map_of_mem _ hm
  · intro t v
    refine ⟨?_, ?_, by simp [into_tracked]⟩
    · rw [Changes.new_for]
      simp [Shape.for_each_type, Changes.reserve, Changes.new, insertVacant]
    · exact is_changed_of_allFalse _ t (new_for_allFalse _ _)

/-- Witness for C10: the read-only leaf 3 of shape `(&3,)` is
enumerated with mode ReadOnly and still gets a reserved cell. -/
theorem new_for_shape_determined_witness :
    (3, AccessMode.ReadOnly) ∈ (Shape.tup [Shape.ref 3]).for_each_type ∧
    3 ∈ (Changes.new_for (Shape.tup [Shape.ref 3]) Val.leafV).keys :=
  ⟨by decide,
   new_for_shape_determined.2.1 (Shape.tup [Shape.ref 3]) Val.leafV 3
     AccessMode.ReadOnly (by decide)⟩

end Ecstasy
